import Mathlib

/-!
punch: the sync command, its orchestration and the start / end commands

A shallow embedding of `cmd/cli/sync.go` and `cmd/cli/punch.go`.

The collaborators of the orchestrator (`Source.Pull`, `Source.Push`,
`SessionRepository.GetAllSessionsAllCompanies`, `SessionRepository.Upsert`,
`sync.GetConflicts`, `editor.InteractiveEdit`,
`models.DeserializeSessionsFromYAML`) live in other packages; they are taken
as arbitrary functions that may fail.  The run is modelled by explicit state
passing: the local store, the remote and the trace of collaborator calls.
The store is written through `Upsert` only and the remote through `Push`
only; every call is appended to the trace with its arguments and its error.
-/

namespace Punch

/-- Contents of a `bytes.Buffer`: the unread bytes.  A `*bytes.Buffer` that may
be nil is an `Option Buffer`. -/
abbrev Buffer := List Nat

/-- A call to one of the collaborators of `Sync`, with its arguments. -/
inductive Call (S P : Type) where
  | Pull
  | GetAllSessionsAllCompanies
  | GetConflicts (sessions : List S) (pulledSessions : P)
  | InteractiveEdit (buf : Buffer) (format : String)
  | DeserializeSessionsFromYAML (buf : Option Buffer) (sessions : List S) (flag : Bool)
  | Upsert (session : S) (allowCreate : Bool)
  | Push (sessions : List S)
deriving DecidableEq, Repr

/-- One entry of the trace: the call and the error it returned (`none` is Go's
`nil` error). -/
structure Event (S P E : Type) where
  call : Call S P
  err : Option E
deriving DecidableEq, Repr

/-- The collaborators of `Sync`.  `St` is the state of the local store, `Rm`
the state of the remote, `S` the session type, `P` the type of what `Pull`
returns, `E` the error type. -/
structure Collaborators (St Rm S P E : Type) where
  /-- Go: `source.Pull()` -/
  Pull : Rm → Except E P
  /-- Go: `SessionRepository.GetAllSessionsAllCompanies()` -/
  GetAllSessionsAllCompanies : St → Except E (List S)
  /-- Go: `sync.GetConflicts(sessions, pulledSessions)`; the buffer may be nil -/
  GetConflicts : List S → P → Except E (Option Buffer)
  /-- Go: `editor.InteractiveEdit(buf, format)`; edits the buffer in place -/
  InteractiveEdit : Buffer → String → Except E Buffer
  /-- Go: `models.DeserializeSessionsFromYAML(buf, sessions, flag)`; rewrites
  `*sessions` in place -/
  DeserializeSessionsFromYAML : Option Buffer → List S → Bool → Except E (List S)
  /-- Go: `SessionRepository.Upsert(&session, allowCreate)` -/
  Upsert : S → Bool → St → Option E × St
  /-- Go: `source.Push(sessions)` -/
  Push : List S → Rm → Option E × Rm

/-- State of a run: the local store, the remote, and the calls made so far. -/
structure State (St Rm S P E : Type) where
  store : St
  remote : Rm
  trace : List (Event S P E)

variable {St Rm S P E : Type}

/-- Append a call and its error to the trace. -/
def State.log (σ : State St Rm S P E) (call : Call S P) (err : Option E) :
    State St Rm S P E :=
  { σ with trace := σ.trace ++ [⟨call, err⟩] }

/-- The commit loop of `pull` (sync.go, lines 93-98):
`for _, session := range *sessions { err = Upsert(&session, false); if err != nil { return nil, err } }`. -/
def pullCommit (c : Collaborators St Rm S P E) :
    List S → State St Rm S P E → Option E × State St Rm S P E
  | [], σ => (none, σ)
  | session :: rest, σ =>
    match c.Upsert session false σ.store with
    | (some err, st) =>
      (some err, ({ σ with store := st }).log (.Upsert session false) (some err))
    | (none, st) =>
      pullCommit c rest (({ σ with store := st }).log (.Upsert session false) none)

/-- Lines 88-91 of `pull`: `models.DeserializeSessionsFromYAML(conflictsBuffer, sessions, false)`
rewrites `*sessions`; the call is made whether or not the buffer is nil or empty. -/
def pullDeserialize (c : Collaborators St Rm S P E) (conflictsBuffer : Option Buffer)
    (sessions : List S) (σ : State St Rm S P E) :
    Except E (List S) × State St Rm S P E :=
  match c.DeserializeSessionsFromYAML conflictsBuffer sessions false with
  | .error err =>
    (.error err, σ.log (.DeserializeSessionsFromYAML conflictsBuffer sessions false) (some err))
  | .ok resolved =>
    (.ok resolved, σ.log (.DeserializeSessionsFromYAML conflictsBuffer sessions false) none)

/-- Lines 81-91 of `pull`: the guarded interactive edit
(`if conflictsBuffer != nil && conflictsBuffer.Len() > 0`), then the
deserialization. -/
def pullEdit (c : Collaborators St Rm S P E) (conflictsBuffer : Option Buffer)
    (sessions : List S) (σ : State St Rm S P E) :
    Except E (List S) × State St Rm S P E :=
  match conflictsBuffer with
  | some buf =>
    if buf.length > 0 then
      match c.InteractiveEdit buf "yaml" with
      | .error err => (.error err, σ.log (.InteractiveEdit buf "yaml") (some err))
      | .ok edited =>
        pullDeserialize c (some edited) sessions (σ.log (.InteractiveEdit buf "yaml") none)
    else pullDeserialize c (some buf) sessions σ
  | none => pullDeserialize c none sessions σ

/-- Lines 66-91 of `pull`: everything before the commit loop.  Returns the
resolved collection, the value of `*sessions` when the loop starts. -/
def pullResolve (c : Collaborators St Rm S P E) (σ : State St Rm S P E) :
    Except E (List S) × State St Rm S P E :=
  match c.Pull σ.remote with
  | .error err => (.error err, σ.log .Pull (some err))
  | .ok pulledSessions =>
    match c.GetAllSessionsAllCompanies σ.store with
    | .error err =>
      (.error err, (σ.log .Pull none).log .GetAllSessionsAllCompanies (some err))
    | .ok sessions =>
      match c.GetConflicts sessions pulledSessions with
      | .error err =>
        (.error err, ((σ.log .Pull none).log .GetAllSessionsAllCompanies none).log
          (.GetConflicts sessions pulledSessions) (some err))
      | .ok conflictsBuffer =>
        pullEdit c conflictsBuffer sessions
          (((σ.log .Pull none).log .GetAllSessionsAllCompanies none).log
            (.GetConflicts sessions pulledSessions) none)

/-- The function `pull` of sync.go (lines 65-101): resolve, commit, return the
resolved sessions. -/
def pull (c : Collaborators St Rm S P E) (σ : State St Rm S P E) :
    Except E (List S) × State St Rm S P E :=
  match pullResolve c σ with
  | (.error err, σ₁) => (.error err, σ₁)
  | (.ok sessions, σ₁) =>
    match pullCommit c sessions σ₁ with
    | (some err, σ₂) => (.error err, σ₂)
    | (none, σ₂) => (.ok sessions, σ₂)

/-- The function `Sync` of sync.go (lines 47-63); `pullOnly` is the package
variable set by the `--pull-only` flag. -/
def Sync (c : Collaborators St Rm S P E) (pullOnly : Bool) (σ : State St Rm S P E) :
    Option E × State St Rm S P E :=
  match pull c σ with
  | (.error err, σ₁) => (some err, σ₁)
  | (.ok resolvedSessions, σ₁) =>
    if pullOnly then (none, σ₁)
    else
      match c.Push resolvedSessions σ₁.remote with
      | (some err, rm) =>
        (some err, ({ σ₁ with remote := rm }).log (.Push resolvedSessions) (some err))
      | (none, rm) => (none, ({ σ₁ with remote := rm }).log (.Push resolvedSessions) none)

/-! ## The start and end commands (punch.go) -/

/-- Go: `Config.Settings`, the fields the commands read. -/
structure Settings where
  DefaultRemote : String
  AutoSync : List String
deriving DecidableEq, Repr

/-- Go: `Config`, the settings and the map of configured remotes
(`Config.Remotes[name]` is a lookup that may miss). -/
structure Config (R : Type) where
  Settings : Settings
  Remotes : String → Option R

/-- How a command handler ends: it returns its error value (`none` is Go's
nil), or it panics on a nil pointer. -/
inductive Outcome (E : Type) where
  | returned (err : Option E)
  | panicked
deriving DecidableEq, Repr

/-- What the start and end commands use besides `Sync`: the time parser, the
`Puncher`, and what the print functions read of a `*models.Session`.  `T` is
the timestamp type, `C` the client type, `Sn` the session type. -/
structure PunchDeps (St T C Sn E : Type) where
  /-- Go: `getParsedTimeFromArgs(args)` -/
  getParsedTimeFromArgs : List String → Except E T
  /-- Go: `Puncher.StartSession(client, timestamp, message)`: the session
  pointer (possibly nil) and the error, both as returned -/
  StartSession : C → T → String → St → (Option Sn × Option E) × St
  /-- Go: `Puncher.EndSession(client, timestamp, message)`: the session pointer
  (possibly nil) and the error, both as returned -/
  EndSession : C → T → String → St → (Option Sn × Option E) × St
  /-- Go: the field `session.Start`, a pointer (`*session.Start` on line 69);
  `none` is nil -/
  Start : Sn → Option T
  /-- Go: the field `session.End`; `none` is nil -/
  End : Sn → Option T
  /-- Go: the error of `session.Earnings()`; the amount is only printed -/
  Earnings : Sn → Option E

/-- Go: `printBOD` (punch.go, lines 63-65).  `session.Start.Format(...)`
dereferences the session and its start: the value is `true` when the call
completes and `false` when it panics on a nil pointer. -/
def printBOD {T C Sn : Type} (d : PunchDeps St T C Sn E) (session : Option Sn) : Bool :=
  match session with
  | none => false
  | some s => (d.Start s).isSome

/-- Go: `printEOD` (punch.go, lines 67-79).  Line 68 calls
`session.Earnings()`, line 69 computes `session.End.Sub(*session.Start)`, which
dereferences the session, its end and its start and panics when one of them
is nil; only then is the error of `Earnings` tested and returned. -/
def printEOD {T C Sn : Type} (d : PunchDeps St T C Sn E) (session : Option Sn) : Outcome E :=
  match session with
  | none => .panicked
  | some s =>
    match d.End s, d.Start s with
    | some _, some _ => .returned (d.Earnings s)
    | _, _ => .panicked

/-- Go: `startCmd.RunE` (punch.go, lines 18-34).  The value of the call
`Sync()` on line 31 is dropped.  The package variable `Source` that `Sync`
reads is taken as set: `c` holds its `Pull` and `Push`. -/
def startRunE {T C Sn R : Type} (d : PunchDeps St T C Sn E) (cfg : Config R)
    (c : Collaborators St Rm S P E) (pullOnly : Bool) (currentClient : C)
    (punchMessage : String) (args : List String) (σ : State St Rm S P E) :
    Outcome E × State St Rm S P E :=
  match d.getParsedTimeFromArgs args with
  | .error err => (.returned (some err), σ)
  | .ok timestamp =>
    match d.StartSession currentClient timestamp punchMessage σ.store with
    | ((_, some err), st) => (.returned (some err), { σ with store := st })
    | ((session, none), st) =>
      if printBOD d session then
        if cfg.Settings.AutoSync.contains "start" then
          (.returned none, (Sync c pullOnly { σ with store := st }).2)
        else (.returned none, { σ with store := st })
      else (.panicked, { σ with store := st })

/-- Go: `endCmd.RunE` (punch.go, lines 44-60).  Line 50 is
`session, _ := Puncher.EndSession(...)`: the error of `EndSession` is
discarded, and the `err` tested on line 51 is still the one of the time
parser, nil at that point.  `printEOD(session)` on line 54 runs on whatever
session pointer came back; its value is dropped, as is the value of `Sync()`
on line 57. -/
def endRunE {T C Sn R : Type} (d : PunchDeps St T C Sn E) (cfg : Config R)
    (c : Collaborators St Rm S P E) (pullOnly : Bool) (currentClient : C)
    (punchMessage : String) (args : List String) (σ : State St Rm S P E) :
    Outcome E × State St Rm S P E :=
  match d.getParsedTimeFromArgs args with
  | .error err => (.returned (some err), σ)
  | .ok timestamp =>
    match d.EndSession currentClient timestamp punchMessage σ.store with
    | ((session, _), st) =>
      match printEOD d session with
      | .panicked => (.panicked, { σ with store := st })
      | .returned _ =>
        if cfg.Settings.AutoSync.contains "end" then
          (.returned none, (Sync c pullOnly { σ with store := st }).2)
        else (.returned none, { σ with store := st })

/-! ## Remote resolution of the sync command (sync.go, `PreRunE`) -/

/-- The errors `syncCmd.PreRunE` can return: its own two `errors.New` values
and whatever `sync.NewSource` returns. -/
inductive PreRunError (E : Type) where
  /-- Go: `errors.New("Must specify remote")` -/
  | mustSpecifyRemote
  /-- Go: `errors.New("Remote not found")` -/
  | remoteNotFound
  /-- An error returned by `sync.NewSource` -/
  | newSource (err : E)
deriving DecidableEq, Repr

/-- Go: `syncCmd.PreRunE` (sync.go, lines 20-41).  `NewSource` is
`sync.NewSource(remote, SessionRepository)`; the result is the value stored in
`*Source`. -/
def syncPreRunE {R Repo Src : Type} (cfg : Config R) (NewSource : R → Repo → Except E Src)
    (SessionRepository : Repo) (args : List String) : Except (PreRunError E) Src :=
  let remoteString : Except (PreRunError E) String :=
    match args with
    | arg0 :: _ => .ok arg0
    | [] =>
      if cfg.Settings.DefaultRemote.length > 0 then .ok cfg.Settings.DefaultRemote
      else .error .mustSpecifyRemote
  match remoteString with
  | .error err => .error err
  | .ok name =>
    match cfg.Remotes name with
    | none => .error .remoteNotFound
    | some remote =>
      match NewSource remote SessionRepository with
      | .error err => .error (.newSource err)
      | .ok source => .ok source

/-! ## The store as a map keyed by session identifier -/

/-- Modelled from the spec: `models.Session` (package `pkg/models` is not among
the sources): identifier, client, start, optional end, note. -/
structure Session where
  id : Nat
  client : String
  start : Nat
  finish : Option Nat
  note : String
deriving DecidableEq, Repr

/-- Modelled from the spec: `SessionRepository.Upsert` (the repository is not
among the sources), "insert-or-update keyed by identifier", taken as
insert-or-overwrite on a store keyed by session identifier: the record with
the identifier of `s` is replaced by `s`, and `s` is added at the end when the
identifier is unseen. -/
def upsertStore {K : Type} [DecidableEq K] (key : S → K) (s : S) : List S → List S
  | [] => [s]
  | t :: ts => if key t = key s then s :: ts else t :: upsertStore key s ts

/-- Collaborators whose store is the map model: `GetAllSessionsAllCompanies`
returns the content of the store, `Upsert` is `upsertStore` and succeeds.  The
other collaborators stay arbitrary. -/
def withMapStore {K : Type} [DecidableEq K] (key : S → K)
    (c : Collaborators (List S) Rm S P E) : Collaborators (List S) Rm S P E :=
  { c with
    GetAllSessionsAllCompanies := fun st => .ok st
    Upsert := fun s _ st => (none, upsertStore key s st) }

/-! ## Reading a trace -/

/-- The events logged between state `σ` and the later state `σ₁`. -/
def State.since (σ₁ σ : State St Rm S P E) : List (Event S P E) :=
  σ₁.trace.drop σ.trace.length

/-- Is the call a `Push`? -/
def Call.isPush : Call S P → Bool
  | .Push _ => true
  | _ => false

/-- Is the call an `Upsert`? -/
def Call.isUpsert : Call S P → Bool
  | .Upsert _ _ => true
  | _ => false

/-- Is the call an `InteractiveEdit`? -/
def Call.isEdit : Call S P → Bool
  | .InteractiveEdit _ _ => true
  | _ => false

/-- Is the call a `DeserializeSessionsFromYAML`? -/
def Call.isDeserialize : Call S P → Bool
  | .DeserializeSessionsFromYAML _ _ _ => true
  | _ => false

/-- Is the call one of the five made before the commit loop? -/
def Call.isPreCommit : Call S P → Bool
  | .Upsert _ _ => false
  | .Push _ => false
  | _ => true

/-- The session an `Upsert` event was called on. -/
def Event.upserted : Event S P E → Option S
  | ⟨.Upsert s _, _⟩ => some s
  | _ => none

/-- The event of a successful `Upsert(&s, false)`. -/
def okUpsert (s : S) : Event S P E := ⟨.Upsert s false, none⟩

/-- The store after the `Upsert` calls of the commit loop on `l`, in order,
starting from `st`. -/
def commitStore (c : Collaborators St Rm S P E) (l : List S) (st : St) : St :=
  l.foldl (fun st s => (c.Upsert s false st).2) st

/-- Every `Upsert` of the commit loop on `l` from `st` succeeds. -/
def commitSucceeds (c : Collaborators St Rm S P E) : List S → St → Prop
  | [], _ => True
  | s :: rest, st => (c.Upsert s false st).1 = none ∧ commitSucceeds c rest (c.Upsert s false st).2

/-- The error of a result, `none` when it is a value. -/
def errOf {α : Type} : Except E α → Option E
  | .ok _ => none
  | .error e => some e

/-! ## A concrete instance -/

/-- A session with identifier `n`, from 9 to 17 for client acme. -/
def mkSession (n : Nat) : Session := ⟨n, "acme", 9, some 17, ""⟩

/-- Example collaborators over lists of sessions.  `Pull` returns the remote;
the conflicts are the identifiers of the pulled sessions the store lacks (a nil
buffer when there are none); the editor leaves the buffer as it is; the
deserializer keeps the sessions on a nil buffer and otherwise replaces them by
the sessions decoded from the buffer; `Upsert` rejects a session that ends
before it starts and is insert-or-overwrite otherwise; `Push` replaces the
remote. -/
def demo : Collaborators (List Session) (List Session) Session (List Session) String where
  Pull rm := .ok rm
  GetAllSessionsAllCompanies st := .ok st
  GetConflicts l p :=
    .ok (match (p.filter (fun s => !l.contains s)).map Session.id with
      | [] => none
      | ids => some ids)
  InteractiveEdit buf _ := .ok buf
  DeserializeSessionsFromYAML buf l _ :=
    match buf with
    | none => .ok l
    | some ids => .ok (ids.map mkSession)
  Upsert s _ st :=
    if s.finish.any (fun t => decide (t < s.start)) then (some "validation", st)
    else (none, upsertStore Session.id s st)
  Push l _ := (none, l)

/-- The example collaborators with an unreachable remote. -/
def demoOffline : Collaborators (List Session) (List Session) Session (List Session) String :=
  { demo with Pull := fun _ => .error "remote unavailable" }

/-- The example collaborators with a remote that refuses writes. -/
def demoReadOnly : Collaborators (List Session) (List Session) Session (List Session) String :=
  { demo with Push := fun _ rm => (some "remote read-only", rm) }

/-- A session that ends before it starts. -/
def badSession : Session := ⟨3, "acme", 9, some 8, ""⟩

/-- Initial state with the given store and remote and an empty trace. -/
def State.init (st : St) (rm : Rm) : State St Rm S P E := ⟨st, rm, []⟩

/-- The example collaborators with a user resolution made of session 2, a
session that ends before it starts, and session 4. -/
def demoBadResolution :
    Collaborators (List Session) (List Session) Session (List Session) String :=
  { demo with
    DeserializeSessionsFromYAML := fun _ _ _ => Except.ok [mkSession 2, badSession, mkSession 4] }

/-- The map store after upserting the sessions of `l`, in order. -/
def upsertAll {K : Type} [DecidableEq K] (key : S → K) (l : List S) (st : List S) : List S :=
  l.foldl (fun st s => upsertStore key s st) st

/-- Example time parser and puncher: no argument means hour 9, the argument
"17" means hour 17 and any other argument is rejected; `StartSession` appends
an open session to the store; `EndSession` closes the last session of the
store and fails, with a nil session, on an empty store; the start of a session
is always set, its end is set once it is closed, and `Earnings` fails on an
open session. -/
def demoPuncher : PunchDeps (List Session) Nat String Session String where
  getParsedTimeFromArgs args :=
    match args with
    | [] => .ok 9
    | a :: _ => if a = "17" then .ok 17 else .error "invalid time"
  StartSession client timestamp message st :=
    ((some ⟨st.length + 1, client, timestamp, none, message⟩, none),
      st ++ [⟨st.length + 1, client, timestamp, none, message⟩])
  EndSession _ timestamp message st :=
    match st.getLast? with
    | none => ((none, some "no open session"), st)
    | some s =>
      ((some { s with finish := some timestamp, note := message }, none),
        st.dropLast ++ [{ s with finish := some timestamp, note := message }])
  Start s := some s.start
  End s := s.finish
  Earnings s := if s.finish.isSome then none else some "open session"

/-- Example configuration: one remote `origin`, the default, and auto-sync on
start and end. -/
def demoConfig : Config Nat :=
  { Settings := { DefaultRemote := "origin", AutoSync := ["start", "end"] }
    Remotes := fun name => if name = "origin" then some 0 else none }

/-- The remote name the sync command uses, in the words of the spec: the first
argument when one is given, otherwise the configured default remote when it
is non-empty. -/
def remoteNameSpec (args : List String) (defaultRemote : String) : Option String :=
  match args.head? with
  | some arg => some arg
  | none => if defaultRemote ≠ "" then some defaultRemote else none

/-- Example `sync.NewSource`: the source is the remote itself. -/
def demoNewSource : Nat → Unit → Except String Nat := fun remote _ => .ok remote

/-! ## The commit loop -/

theorem pullCommit_of_succeeds (c : Collaborators St Rm S P E) (l : List S)
    (σ : State St Rm S P E) (h : commitSucceeds c l σ.store) :
    pullCommit c l σ =
      (none, ⟨commitStore c l σ.store, σ.remote, σ.trace ++ l.map okUpsert⟩) := by
  induction l generalizing σ with
  | nil => simp [pullCommit, commitStore]
  | cons s rest ih =>
    obtain ⟨h₁, h₂⟩ := h
    rcases hu : c.Upsert s false σ.store with ⟨e, st⟩
    rw [hu] at h₁ h₂
    simp only at h₁ h₂
    subst h₁
    simp only [pullCommit, hu]
    rw [ih _ h₂]
    simp [State.log, commitStore, hu, okUpsert]

theorem pullCommit_append (c : Collaborators St Rm S P E) (a b : List S)
    (σ : State St Rm S P E) (h : commitSucceeds c a σ.store) :
    pullCommit c (a ++ b) σ =
      pullCommit c b ⟨commitStore c a σ.store, σ.remote, σ.trace ++ a.map okUpsert⟩ := by
  induction a generalizing σ with
  | nil => simp [commitStore]
  | cons s rest ih =>
    obtain ⟨h₁, h₂⟩ := h
    rcases hu : c.Upsert s false σ.store with ⟨e, st⟩
    rw [hu] at h₁ h₂
    simp only at h₁ h₂
    subst h₁
    have := ih (({ σ with store := st }).log (.Upsert s false) none) h₂
    rw [List.cons_append, pullCommit]
    simp only [hu]
    rw [this]
    simp [State.log, commitStore, hu, okUpsert]

theorem pullCommit_fail_at (c : Collaborators St Rm S P E) (a : List S) (s : S) (b : List S)
    (σ : State St Rm S P E) (e : E) (h : commitSucceeds c a σ.store)
    (hs : (c.Upsert s false (commitStore c a σ.store)).1 = some e) :
    pullCommit c (a ++ s :: b) σ =
      (some e, ⟨(c.Upsert s false (commitStore c a σ.store)).2, σ.remote,
        σ.trace ++ a.map okUpsert ++ [⟨.Upsert s false, some e⟩]⟩) := by
  rw [pullCommit_append c a (s :: b) σ h]
  rcases hu : c.Upsert s false (commitStore c a σ.store) with ⟨e', st⟩
  rw [hu] at hs
  simp only at hs
  subst hs
  simp [pullCommit, hu, State.log]

theorem pullCommit_cases (c : Collaborators St Rm S P E) (l : List S)
    (σ : State St Rm S P E) :
    (commitSucceeds c l σ.store ∧ (pullCommit c l σ).1 = none) ∨
    ∃ a s b e, l = a ++ s :: b ∧ commitSucceeds c a σ.store ∧
      (c.Upsert s false (commitStore c a σ.store)).1 = some e ∧
      (pullCommit c l σ).1 = some e := by
  induction l generalizing σ with
  | nil => left; simp [commitSucceeds, pullCommit]
  | cons s rest ih =>
    rcases hu : c.Upsert s false σ.store with ⟨e, st⟩
    cases e with
    | some e =>
      right
      exact ⟨[], s, rest, e, rfl, trivial, by simp [commitStore, hu], by simp [pullCommit, hu]⟩
    | none =>
      rcases ih (({ σ with store := st }).log (.Upsert s false) none) with h | ⟨a, t, b, e, h₁, h₂, h₃, h₄⟩
      · left
        refine ⟨⟨by simp [hu], by simpa [hu, State.log] using h.1⟩, ?_⟩
        simpa [pullCommit, hu] using h.2
      · right
        refine ⟨s :: a, t, b, e, by simp [h₁], ⟨by simp [hu], by simpa [hu, State.log] using h₂⟩, ?_, ?_⟩
        · simpa [commitStore, hu, State.log] using h₃
        · simpa [pullCommit, hu] using h₄

/-! ## The steps before the commit loop -/

theorem since_mk (σ : State St Rm S P E) (st : St) (rm : Rm) (evs : List (Event S P E)) :
    State.since ⟨st, rm, σ.trace ++ evs⟩ σ = evs := by
  simp [State.since]

theorem pullResolve_spec (c : Collaborators St Rm S P E) (σ : State St Rm S P E) :
    ∃ evs, (pullResolve c σ).2 = ⟨σ.store, σ.remote, σ.trace ++ evs⟩ ∧
      (∀ ev ∈ evs, ev.call.isPreCommit = true) ∧
      (∀ r, (pullResolve c σ).1 = .ok r → ∀ ev ∈ evs, ev.err = none) ∧
      (∀ e, (pullResolve c σ).1 = .error e →
        (∀ ev ∈ evs, ev.err = none ∨ ev.err = some e) ∧ ∃ ev ∈ evs, ev.err = some e) := by
  unfold pullResolve pullEdit pullDeserialize
  repeat' split
  all_goals first
    | exact ⟨_, rfl, by simp [Call.isPreCommit]⟩
    | exact ⟨_, by simp [State.log]; rfl, by simp [Call.isPreCommit]⟩

/-! ## The three ways a run of `Sync` can go -/

/-- A run of `Sync` fails before the commit loop, fails inside it at the first
failing `Upsert`, or commits everything and then pushes unless pull-only.  In
each case the result and the final state are given in closed form; `pre` is
the list of calls made before the commit loop. -/
theorem Sync_cases (c : Collaborators St Rm S P E) (σ : State St Rm S P E) :
    ∃ pre : List (Event S P E), (∀ ev ∈ pre, ev.call.isPreCommit = true) ∧
      (pullResolve c σ).2 = ⟨σ.store, σ.remote, σ.trace ++ pre⟩ ∧
      ((∃ e, (pullResolve c σ).1 = .error e ∧
          (∀ ev ∈ pre, ev.err = none ∨ ev.err = some e) ∧ (∃ ev ∈ pre, ev.err = some e) ∧
          pull c σ = (.error e, ⟨σ.store, σ.remote, σ.trace ++ pre⟩) ∧
          ∀ pullOnly, Sync c pullOnly σ = (some e, ⟨σ.store, σ.remote, σ.trace ++ pre⟩)) ∨
       (∃ r a s b e, (pullResolve c σ).1 = .ok r ∧ (∀ ev ∈ pre, ev.err = none) ∧
          r = a ++ s :: b ∧ commitSucceeds c a σ.store ∧
          (c.Upsert s false (commitStore c a σ.store)).1 = some e ∧
          pull c σ = (.error e, ⟨(c.Upsert s false (commitStore c a σ.store)).2, σ.remote,
              σ.trace ++ pre ++ a.map okUpsert ++ [⟨.Upsert s false, some e⟩]⟩) ∧
          ∀ pullOnly, Sync c pullOnly σ =
            (some e, ⟨(c.Upsert s false (commitStore c a σ.store)).2, σ.remote,
              σ.trace ++ pre ++ a.map okUpsert ++ [⟨.Upsert s false, some e⟩]⟩)) ∨
       (∃ r, (pullResolve c σ).1 = .ok r ∧ (∀ ev ∈ pre, ev.err = none) ∧
          commitSucceeds c r σ.store ∧
          pull c σ = (.ok r, ⟨commitStore c r σ.store, σ.remote,
            σ.trace ++ pre ++ r.map okUpsert⟩) ∧
          Sync c true σ = (none, ⟨commitStore c r σ.store, σ.remote,
            σ.trace ++ pre ++ r.map okUpsert⟩) ∧
          Sync c false σ = ((c.Push r σ.remote).1, ⟨commitStore c r σ.store,
            (c.Push r σ.remote).2,
            σ.trace ++ pre ++ r.map okUpsert ++ [⟨.Push r, (c.Push r σ.remote).1⟩]⟩))) := by
  obtain ⟨pre, hst, hpre, hok, herr⟩ := pullResolve_spec c σ
  refine ⟨pre, hpre, hst, ?_⟩
  rcases hres : pullResolve c σ with ⟨res, σ₁⟩
  rw [hres] at hst hok herr
  simp only at hst hok herr
  subst hst
  cases res with
  | error e =>
    left
    refine ⟨e, rfl, (herr e rfl).1, (herr e rfl).2, ?_, ?_⟩
    · simp [pull, hres]
    · intro pullOnly
      simp [Sync, pull, hres]
  | ok r =>
    right
    have hnone := hok r rfl
    rcases pullCommit_cases c r ⟨σ.store, σ.remote, σ.trace ++ pre⟩ with h | ⟨a, s, b, e, h₁, h₂, h₃, -⟩
    · right
      have hc := pullCommit_of_succeeds c r ⟨σ.store, σ.remote, σ.trace ++ pre⟩ h.1
      simp only at hc
      refine ⟨r, rfl, hnone, h.1, ?_, ?_, ?_⟩
      · simp [pull, hres, hc]
      · simp [Sync, pull, hres, hc]
      · rcases hp : c.Push r σ.remote with ⟨pe, rm⟩
        cases pe <;> simp [Sync, pull, hres, hc, hp, State.log]
    · left
      subst h₁
      have hc := pullCommit_fail_at c a s b ⟨σ.store, σ.remote, σ.trace ++ pre⟩ e h₂ h₃
      simp only at hc
      refine ⟨_, a, s, b, e, rfl, hnone, rfl, h₂, h₃, ?_, ?_⟩
      · simp [pull, hres, hc]
      · intro pullOnly
        simp [Sync, pull, hres, hc]

/-! ## Properties of the orchestration -/

theorem isPreCommit_not_upsert_push (call : Call S P) (h : call.isPreCommit = true) :
    call.isUpsert = false ∧ call.isPush = false := by
  cases call <;> simp_all [Call.isPreCommit, Call.isUpsert, Call.isPush]

theorem split_at_unique {α : Type} (q : α → Bool) (xs pre post : List α) (x y : α)
    (hxs : ∀ a ∈ xs, q a = false) (hy : q y = true) (h : xs ++ [x] = pre ++ y :: post) :
    pre = xs ∧ y = x ∧ post = [] := by
  induction xs generalizing pre with
  | nil =>
    cases pre with
    | nil => simp at h; simp [h]
    | cons a pre => simp at h
  | cons b xs ih =>
    cases pre with
    | nil =>
      simp at h
      have := hxs b (by simp)
      rw [h.1, hy] at this
      exact absurd this (by simp)
    | cons a pre =>
      simp at h
      obtain ⟨h₁, h₂, h₃⟩ := ih pre (fun a ha => hxs a (by simp [ha])) (by simpa using h.2)
      exact ⟨by rw [h.1, h₁], h₂, h₃⟩

/-- C2: if one of the five calls made before the commit loop (Pull,
GetAllSessionsAllCompanies, GetConflicts, InteractiveEdit,
DeserializeSessionsFromYAML) returns an error in a run of Sync, then Sync
returns that same error, the run made no Upsert and no Push call, and the store
and the remote are as they were. -/
theorem Sync_early_failure_commits_nothing (c : Collaborators St Rm S P E) (pullOnly : Bool)
    (σ : State St Rm S P E) (ev : Event S P E) (e : E)
    (hev : ev ∈ (Sync c pullOnly σ).2.since σ) (hcall : ev.call.isPreCommit = true)
    (herr : ev.err = some e) :
    (Sync c pullOnly σ).1 = some e ∧
    (∀ ev' ∈ (Sync c pullOnly σ).2.since σ,
      ev'.call.isUpsert = false ∧ ev'.call.isPush = false) ∧
    (Sync c pullOnly σ).2.store = σ.store ∧ (Sync c pullOnly σ).2.remote = σ.remote := by
  obtain ⟨pre, hpre, -, h⟩ := Sync_cases c σ
  rcases h with ⟨e', -, h₁, -, -, hS⟩ | ⟨r, a, s, b, e', -, hnone, -, -, -, -, hS⟩ |
    ⟨r, -, hnone, -, -, hT, hF⟩
  · rw [hS pullOnly] at hev ⊢
    rw [since_mk] at hev ⊢
    rcases h₁ ev hev with h | h
    · rw [h] at herr; cases herr
    · rw [h] at herr
      cases herr
      exact ⟨rfl, fun ev' h' => isPreCommit_not_upsert_push _ (hpre ev' h'), rfl, rfl⟩
  · exfalso
    rw [hS pullOnly] at hev
    rw [List.append_assoc, List.append_assoc, since_mk] at hev
    simp only [List.mem_append, List.mem_map, List.mem_singleton] at hev
    rcases hev with h | ⟨t, -, rfl⟩ | rfl
    · rw [hnone ev h] at herr; cases herr
    · simp [okUpsert, Call.isPreCommit] at hcall
    · simp [Call.isPreCommit] at hcall
  · exfalso
    cases pullOnly
    · rw [hF] at hev
      rw [List.append_assoc, List.append_assoc, since_mk] at hev
      simp only [List.mem_append, List.mem_map, List.mem_singleton] at hev
      rcases hev with h | ⟨t, -, rfl⟩ | rfl
      · rw [hnone ev h] at herr; cases herr
      · simp [okUpsert, Call.isPreCommit] at hcall
      · simp [Call.isPreCommit] at hcall
    · rw [hT] at hev
      rw [List.append_assoc, since_mk] at hev
      simp only [List.mem_append, List.mem_map] at hev
      rcases hev with h | ⟨t, -, rfl⟩
      · rw [hnone ev h] at herr; cases herr
      · simp [okUpsert, Call.isPreCommit] at hcall

/-- Witness of C2: with an unreachable remote, Sync returns the error of Pull
and the store and the remote are untouched. -/
theorem Sync_early_failure_commits_nothing_witness :
    (Sync demoOffline false (State.init [mkSession 1] [mkSession 2])).1
        = some "remote unavailable" ∧
      (∀ ev' ∈ (Sync demoOffline false (State.init [mkSession 1] [mkSession 2])).2.since
          (State.init [mkSession 1] [mkSession 2]),
        ev'.call.isUpsert = false ∧ ev'.call.isPush = false) ∧
      (Sync demoOffline false (State.init [mkSession 1] [mkSession 2])).2.store
        = [mkSession 1] ∧
      (Sync demoOffline false (State.init [mkSession 1] [mkSession 2])).2.remote
        = [mkSession 2] :=
  Sync_early_failure_commits_nothing demoOffline false
    (State.init [mkSession 1] [mkSession 2]) ⟨.Pull, some "remote unavailable"⟩
    "remote unavailable" (by decide) rfl rfl

theorem filter_isUpsert_pre (pre : List (Event S P E))
    (hpre : ∀ ev ∈ pre, ev.call.isPreCommit = true) :
    pre.filter (fun ev => ev.call.isUpsert) = [] := by
  rw [List.filter_eq_nil_iff]
  intro ev hev
  simp [(isPreCommit_not_upsert_push _ (hpre ev hev)).1]

theorem filter_isUpsert_ok (l : List S) :
    (l.map (okUpsert : S → Event S P E)).filter (fun ev => ev.call.isUpsert)
      = l.map okUpsert := by
  rw [List.filter_eq_self]
  intro ev hev
  obtain ⟨s, -, rfl⟩ := List.mem_map.1 hev
  rfl

theorem no_push_before_commit_end (pre : List (Event S P E)) (l : List S)
    (hpre : ∀ ev ∈ pre, ev.call.isPreCommit = true) :
    ∀ ev ∈ pre ++ l.map okUpsert, ev.call.isPush = false := by
  intro ev hev
  rcases List.mem_append.1 hev with h | h
  · exact (isPreCommit_not_upsert_push _ (hpre ev h)).2
  · obtain ⟨s, -, rfl⟩ := List.mem_map.1 h
    rfl

/-- C1: commit locally before pushing.  If a run of Sync calls Push, on the
collection `l`, then the Upsert calls made before it are exactly one successful
Upsert per session of `l`, in order; nothing is called after Push (no Upsert in
particular) and Push is called once; the store at the end of the run, whether
Push failed or not, is the store after the complete commit step; and Sync
returns what Push returned. -/
theorem Sync_commits_before_push (c : Collaborators St Rm S P E) (pullOnly : Bool)
    (σ : State St Rm S P E) (pre post : List (Event S P E)) (l : List S) (e : Option E)
    (h : (Sync c pullOnly σ).2.since σ = pre ++ ⟨.Push l, e⟩ :: post) :
    pre.filter (fun ev => ev.call.isUpsert) = l.map okUpsert ∧
    commitSucceeds c l σ.store ∧
    post = [] ∧ (∀ ev ∈ pre, ev.call.isPush = false) ∧
    (Sync c pullOnly σ).2.store = commitStore c l σ.store ∧
    (Sync c pullOnly σ).2.store = (pull c σ).2.store ∧
    (pull c σ).1 = .ok l ∧
    (Sync c pullOnly σ).1 = e := by
  obtain ⟨evs, hpre, -, hc⟩ := Sync_cases c σ
  have hpush : (Event.mk (Call.Push l) e : Event S P E).call.isPush = true := rfl
  have key : ∀ xs : List (Event S P E), (∀ ev ∈ xs, ev.call.isPush = false) →
      (Sync c pullOnly σ).2.since σ = xs → False := by
    intro xs hxs hx
    rw [hx] at h
    have := hxs ⟨.Push l, e⟩ (by rw [h]; simp)
    rw [hpush] at this
    cases this
  rcases hc with ⟨e', -, -, -, -, hS⟩ | ⟨r, a, s, b, e', -, -, -, -, -, -, hS⟩ |
    ⟨r, -, -, hok, hP, hT, hF⟩
  · exfalso
    refine key evs (fun ev hev => (isPreCommit_not_upsert_push _ (hpre ev hev)).2) ?_
    rw [hS pullOnly, since_mk]
  · exfalso
    refine key (evs ++ a.map okUpsert ++ [⟨.Upsert s false, some e'⟩]) ?_ ?_
    · intro ev hev
      rcases List.mem_append.1 hev with h' | h'
      · exact no_push_before_commit_end evs a hpre ev h'
      · rw [List.mem_singleton.1 h']; rfl
    · rw [hS pullOnly, List.append_assoc, List.append_assoc, since_mk, List.append_assoc]
  · cases pullOnly
    · rw [hF, List.append_assoc, List.append_assoc, since_mk, ← List.append_assoc] at h
      obtain ⟨h₁, h₂, h₃⟩ := split_at_unique (fun ev => ev.call.isPush) _ pre post _ _
        (no_push_before_commit_end evs r hpre) hpush h
      have hl : l = r := by
        have := congrArg Event.call h₂
        simpa using this
      have he : e = (c.Push r σ.remote).1 := congrArg Event.err h₂
      subst hl
      refine ⟨?_, hok, h₃, ?_, ?_, ?_, ?_, ?_⟩
      · rw [h₁, List.filter_append, filter_isUpsert_pre evs hpre, filter_isUpsert_ok]
        rfl
      · rw [h₁]; exact no_push_before_commit_end evs l hpre
      · rw [hF]
      · rw [hF, hP]
      · rw [hP]
      · rw [hF, he]
    · exfalso
      refine key (evs ++ r.map okUpsert) (no_push_before_commit_end evs r hpre) ?_
      rw [hT, List.append_assoc, since_mk]

/-- Witness of C1: a run that pushes to a remote refusing writes; the store
holds the committed sessions although Push failed. -/
theorem Sync_commits_before_push_witness :
    [(⟨.Pull, none⟩ : Event Session (List Session) String),
        ⟨.GetAllSessionsAllCompanies, none⟩,
        ⟨.GetConflicts [mkSession 1] [mkSession 2], none⟩,
        ⟨.InteractiveEdit [2] "yaml", none⟩,
        ⟨.DeserializeSessionsFromYAML (some [2]) [mkSession 1] false, none⟩,
        ⟨.Upsert (mkSession 2) false, none⟩].filter (fun ev => ev.call.isUpsert)
      = [mkSession 2].map okUpsert ∧
    commitSucceeds demoReadOnly [mkSession 2] [mkSession 1] ∧
    ([] : List (Event Session (List Session) String)) = [] ∧
    (∀ ev ∈ [(⟨.Pull, none⟩ : Event Session (List Session) String),
        ⟨.GetAllSessionsAllCompanies, none⟩,
        ⟨.GetConflicts [mkSession 1] [mkSession 2], none⟩,
        ⟨.InteractiveEdit [2] "yaml", none⟩,
        ⟨.DeserializeSessionsFromYAML (some [2]) [mkSession 1] false, none⟩,
        ⟨.Upsert (mkSession 2) false, none⟩], ev.call.isPush = false) ∧
    (Sync demoReadOnly false (State.init [mkSession 1] [mkSession 2])).2.store
      = commitStore demoReadOnly [mkSession 2] [mkSession 1] ∧
    (Sync demoReadOnly false (State.init [mkSession 1] [mkSession 2])).2.store
      = (pull demoReadOnly (State.init [mkSession 1] [mkSession 2])).2.store ∧
    (pull demoReadOnly (State.init [mkSession 1] [mkSession 2])).1 = .ok [mkSession 2] ∧
    (Sync demoReadOnly false (State.init [mkSession 1] [mkSession 2])).1
      = some "remote read-only" :=
  Sync_commits_before_push demoReadOnly false (State.init [mkSession 1] [mkSession 2])
    _ [] [mkSession 2] (some "remote read-only") (by decide)

theorem filterMap_upserted_pre (pre : List (Event S P E))
    (hpre : ∀ ev ∈ pre, ev.call.isPreCommit = true) :
    pre.filterMap Event.upserted = [] := by
  rw [List.filterMap_eq_nil_iff]
  intro ev hev
  have := hpre ev hev
  rcases ev with ⟨call, err⟩
  cases call <;> simp_all [Call.isPreCommit, Event.upserted]

theorem filterMap_upserted_ok (l : List S) :
    (l.map (okUpsert : S → Event S P E)).filterMap Event.upserted = l := by
  induction l with
  | nil => rfl
  | cons s rest ih => simp [okUpsert, Event.upserted] at ih ⊢; exact ih

/-- C3: the commit stops at the first failing Upsert.  When the resolved
collection is `a ++ s :: b`, Upsert succeeds on every session of `a` in turn
and fails with `e` on `s`, then Sync returns `e`; the Upsert calls of the run
are one successful call per session of `a`, in order, then the failing call on
`s`, and none on `b`; the store is the one the failing call left on top of the
effects of the upserts of `a`; the remote is untouched and Push is not
called. -/
theorem Sync_stops_at_first_failed_upsert (c : Collaborators St Rm S P E) (pullOnly : Bool)
    (σ σ₁ : State St Rm S P E) (a : List S) (s : S) (b : List S) (e : E)
    (hres : pullResolve c σ = (.ok (a ++ s :: b), σ₁))
    (hok : commitSucceeds c a σ.store)
    (hfail : (c.Upsert s false (commitStore c a σ.store)).1 = some e) :
    Sync c pullOnly σ =
      (some e, ⟨(c.Upsert s false (commitStore c a σ.store)).2, σ.remote,
        σ₁.trace ++ a.map okUpsert ++ [⟨.Upsert s false, some e⟩]⟩) ∧
    ((Sync c pullOnly σ).2.since σ).filter (fun ev => ev.call.isUpsert)
      = a.map okUpsert ++ [⟨.Upsert s false, some e⟩] ∧
    ((Sync c pullOnly σ).2.since σ).filterMap Event.upserted = a ++ [s] ∧
    (∀ ev ∈ (Sync c pullOnly σ).2.since σ, ev.call.isPush = false) := by
  obtain ⟨pre, hst, hpre, -, -⟩ := pullResolve_spec c σ
  rw [hres] at hst
  simp only at hst
  subst hst
  have hc := pullCommit_fail_at c a s b ⟨σ.store, σ.remote, σ.trace ++ pre⟩ e hok hfail
  simp only at hc
  have hS : Sync c pullOnly σ =
      (some e, ⟨(c.Upsert s false (commitStore c a σ.store)).2, σ.remote,
        σ.trace ++ pre ++ a.map okUpsert ++ [⟨.Upsert s false, some e⟩]⟩) := by
    simp [Sync, pull, hres, hc]
  refine ⟨hS, ?_, ?_, ?_⟩
  · rw [hS, List.append_assoc, List.append_assoc, since_mk, List.filter_append,
      List.filter_append, filter_isUpsert_pre pre hpre, filter_isUpsert_ok]
    rfl
  · rw [hS, List.append_assoc, List.append_assoc, since_mk, List.filterMap_append,
      List.filterMap_append, filterMap_upserted_pre pre hpre, filterMap_upserted_ok]
    rfl
  · rw [hS, List.append_assoc, List.append_assoc, since_mk, ← List.append_assoc]
    intro ev hev
    rcases List.mem_append.1 hev with h | h
    · exact no_push_before_commit_end pre a hpre ev h
    · rw [List.mem_singleton.1 h]; rfl

/-- Witness of C3: the resolution is session 2, a session that ends before it
starts, and session 4; session 2 is committed, the Upsert of the bad session
fails, and session 4 is never upserted. -/
theorem Sync_stops_at_first_failed_upsert_witness :
    Sync demoBadResolution false
        (State.init [mkSession 1] [mkSession 1]) =
      (some "validation", ⟨[mkSession 1, mkSession 2], [mkSession 1],
        [⟨.Pull, none⟩, ⟨.GetAllSessionsAllCompanies, none⟩,
         ⟨.GetConflicts [mkSession 1] [mkSession 1], none⟩,
         ⟨.DeserializeSessionsFromYAML none [mkSession 1] false, none⟩]
        ++ [mkSession 2].map okUpsert ++ [⟨.Upsert badSession false, some "validation"⟩]⟩) ∧
    ((Sync demoBadResolution false
        (State.init [mkSession 1] [mkSession 1])).2.since
          (State.init [mkSession 1] [mkSession 1])).filter (fun ev => ev.call.isUpsert)
      = [mkSession 2].map okUpsert ++ [⟨.Upsert badSession false, some "validation"⟩] ∧
    ((Sync demoBadResolution false
        (State.init [mkSession 1] [mkSession 1])).2.since
          (State.init [mkSession 1] [mkSession 1])).filterMap Event.upserted
      = [mkSession 2] ++ [badSession] ∧
    (∀ ev ∈ (Sync demoBadResolution false
        (State.init [mkSession 1] [mkSession 1])).2.since
          (State.init [mkSession 1] [mkSession 1]), ev.call.isPush = false) :=
  Sync_stops_at_first_failed_upsert demoBadResolution false (State.init [mkSession 1] [mkSession 1])
    _ [mkSession 2] badSession [mkSession 4] "validation" rfl ⟨rfl, trivial⟩ (by decide)

/-- C5: a pull-only run makes exactly the calls of the full run other than
Push, with the same arguments and results and in the same order, and leaves
the same store; it never calls Push and leaves the remote untouched; it
returns nil exactly when `pull` succeeded, and the error of `pull`
otherwise. -/
theorem Sync_pullOnly_same_calls_without_push (c : Collaborators St Rm S P E)
    (σ : State St Rm S P E) :
    (Sync c true σ).2.since σ
      = ((Sync c false σ).2.since σ).filter (fun ev => !ev.call.isPush) ∧
    ((Sync c true σ).2.since σ).filter (fun ev => ev.call.isPush) = [] ∧
    (Sync c true σ).2.store = (Sync c false σ).2.store ∧
    (Sync c true σ).2.remote = σ.remote ∧
    Sync c true σ = (errOf (pull c σ).1, (pull c σ).2) := by
  obtain ⟨pre, hpre, -, hc⟩ := Sync_cases c σ
  have hfilter : ∀ xs : List (Event S P E), (∀ ev ∈ xs, ev.call.isPush = false) →
      xs.filter (fun ev => !ev.call.isPush) = xs ∧
      xs.filter (fun ev => ev.call.isPush) = [] := by
    intro xs hxs
    refine ⟨List.filter_eq_self.2 (fun ev hev => by simp [hxs ev hev]),
      List.filter_eq_nil_iff.2 (fun ev hev => by simp [hxs ev hev])⟩
  rcases hc with ⟨e, -, -, -, hP, hS⟩ | ⟨r, a, s, b, e, -, -, -, -, -, hP, hS⟩ |
    ⟨r, -, -, -, hP, hT, hF⟩
  · have hx := hfilter pre (fun ev hev => (isPreCommit_not_upsert_push _ (hpre ev hev)).2)
    rw [hS true, hS false, since_mk, hP]
    exact ⟨hx.1.symm, hx.2, rfl, rfl, rfl⟩
  · have hx := hfilter (pre ++ a.map okUpsert ++ [⟨.Upsert s false, some e⟩]) (by
      intro ev hev
      rcases List.mem_append.1 hev with h | h
      · exact no_push_before_commit_end pre a hpre ev h
      · rw [List.mem_singleton.1 h]; rfl)
    rw [hS true, hS false, hP, List.append_assoc, List.append_assoc, since_mk,
      ← List.append_assoc]
    exact ⟨hx.1.symm, hx.2, rfl, rfl, rfl⟩
  · have hx := hfilter (pre ++ r.map okUpsert) (no_push_before_commit_end pre r hpre)
    rw [hT, hF, hP]
    refine ⟨?_, ?_, rfl, rfl, rfl⟩
    · rw [List.append_assoc, since_mk]
      rw [List.append_assoc, List.append_assoc, since_mk, ← List.append_assoc,
        List.filter_append, hx.1]
      simp [Call.isPush]
    · rw [List.append_assoc, since_mk]
      exact hx.2

/-! ## The resolution step and the order of the commit -/

theorem since_self_append (σ : State St Rm S P E) (st : St) (rm : Rm)
    (xs ys : List (Event S P E)) :
    State.since ⟨st, rm, σ.trace ++ xs ++ ys⟩ σ = xs ++ ys := by
  rw [List.append_assoc, since_mk]

/-- The calls of a run of `Sync` are those of the steps before the commit
loop, followed by Upsert and Push calls only; the sessions upserted are an
initial segment of the resolved collection, and all of it when `pull`
succeeds. -/
theorem Sync_since (c : Collaborators St Rm S P E) (pullOnly : Bool)
    (σ : State St Rm S P E) :
    ∃ rest, (Sync c pullOnly σ).2.since σ = (pullResolve c σ).2.since σ ++ rest ∧
      (∀ ev ∈ rest, ev.call.isPreCommit = false) ∧
      (∀ ev ∈ (pullResolve c σ).2.since σ, ev.call.isPreCommit = true) ∧
      (∀ r, (pullResolve c σ).1 = .ok r →
        rest.filterMap Event.upserted <+: r ∧
        ((pull c σ).1 = .ok r → rest.filterMap Event.upserted = r)) := by
  obtain ⟨pre, hpre, hst, hc⟩ := Sync_cases c σ
  rw [hst, since_mk]
  rcases hc with ⟨e, he, -, -, -, hS⟩ | ⟨r, a, s, b, e, hr, -, hsplit, -, -, hP, hS⟩ |
    ⟨r, hr, -, -, hP, hT, hF⟩
  · refine ⟨[], by rw [hS pullOnly, since_mk]; simp, by simp, hpre, ?_⟩
    intro r h
    rw [he] at h
    cases h
  · refine ⟨a.map okUpsert ++ [⟨.Upsert s false, some e⟩], ?_, ?_, hpre, ?_⟩
    · rw [hS pullOnly, List.append_assoc, since_self_append]
    · intro ev hev
      rcases List.mem_append.1 hev with h | h
      · obtain ⟨t, -, rfl⟩ := List.mem_map.1 h
        rfl
      · rw [List.mem_singleton.1 h]; rfl
    · intro r' h
      rw [hr] at h
      cases h
      rw [List.filterMap_append, filterMap_upserted_ok, hsplit]
      refine ⟨⟨b, by simp [Event.upserted]⟩, ?_⟩
      intro h'
      rw [hP] at h'
      cases h'
  · cases pullOnly
    · refine ⟨r.map okUpsert ++ [⟨.Push r, (c.Push r σ.remote).1⟩], ?_, ?_, hpre, ?_⟩
      · rw [hF, List.append_assoc, since_self_append]
      · intro ev hev
        rcases List.mem_append.1 hev with h | h
        · obtain ⟨t, -, rfl⟩ := List.mem_map.1 h
          rfl
        · rw [List.mem_singleton.1 h]; rfl
      · intro r' h
        rw [hr] at h
        cases h
        rw [List.filterMap_append, filterMap_upserted_ok]
        simp [Event.upserted]
    · refine ⟨r.map okUpsert, ?_, ?_, hpre, ?_⟩
      · rw [hT, since_self_append]
      · intro ev hev
        obtain ⟨t, -, rfl⟩ := List.mem_map.1 hev
        rfl
      · intro r' h
        rw [hr] at h
        cases h
        rw [filterMap_upserted_ok]
        simp

theorem pullResolve_empty_conflicts (c : Collaborators St Rm S P E) (σ : State St Rm S P E)
    (p : P) (l : List S) (b : Option Buffer)
    (hp : c.Pull σ.remote = .ok p) (hl : c.GetAllSessionsAllCompanies σ.store = .ok l)
    (hb : c.GetConflicts l p = .ok b) (hempty : b = none ∨ b = some []) :
    pullResolve c σ = (c.DeserializeSessionsFromYAML b l false,
      ⟨σ.store, σ.remote, σ.trace ++ [⟨.Pull, none⟩, ⟨.GetAllSessionsAllCompanies, none⟩,
        ⟨.GetConflicts l p, none⟩,
        ⟨.DeserializeSessionsFromYAML b l false,
          errOf (c.DeserializeSessionsFromYAML b l false)⟩]⟩) := by
  rcases hempty with rfl | rfl <;>
    cases hd : c.DeserializeSessionsFromYAML _ l false <;>
    simp [pullResolve, pullEdit, pullDeserialize, hp, hl, hb, hd, State.log, errOf]

/-- C6, amended: when GetConflicts returns a nil or zero-length buffer, the
interactive editor is not called, but the YAML deserializer still is, exactly
once, on that buffer and the local collection; the resolved collection is what
the deserializer returns, and the sessions upserted are an initial segment of
it, all of it when the commit succeeds. -/
theorem Sync_empty_conflicts_skips_editor_only (c : Collaborators St Rm S P E)
    (pullOnly : Bool) (σ : State St Rm S P E) (p : P) (l : List S) (b : Option Buffer)
    (hp : c.Pull σ.remote = .ok p) (hl : c.GetAllSessionsAllCompanies σ.store = .ok l)
    (hb : c.GetConflicts l p = .ok b) (hempty : b = none ∨ b = some []) :
    (∀ ev ∈ (Sync c pullOnly σ).2.since σ, ev.call.isEdit = false) ∧
    ((Sync c pullOnly σ).2.since σ).filter (fun ev => ev.call.isDeserialize)
      = [⟨.DeserializeSessionsFromYAML b l false,
          errOf (c.DeserializeSessionsFromYAML b l false)⟩] ∧
    (pullResolve c σ).1 = c.DeserializeSessionsFromYAML b l false ∧
    (∀ r, c.DeserializeSessionsFromYAML b l false = .ok r →
      ((Sync c pullOnly σ).2.since σ).filterMap Event.upserted <+: r ∧
      ((pull c σ).1 = .ok r →
        ((Sync c pullOnly σ).2.since σ).filterMap Event.upserted = r)) := by
  have hres := pullResolve_empty_conflicts c σ p l b hp hl hb hempty
  obtain ⟨rest, hsince, hrest, -, hr⟩ := Sync_since c pullOnly σ
  rw [hres] at hsince hr
  simp only at hsince hr
  rw [since_mk] at hsince
  have hrestEdit : ∀ ev ∈ rest, ev.call.isEdit = false ∧ ev.call.isDeserialize = false := by
    intro ev hev
    have := hrest ev hev
    rcases ev with ⟨call, err⟩
    cases call <;> simp_all [Call.isPreCommit, Call.isEdit, Call.isDeserialize]
  refine ⟨?_, ?_, by rw [hres], ?_⟩
  · intro ev hev
    rw [hsince] at hev
    rcases List.mem_append.1 hev with h | h
    · simp only [List.mem_cons, List.mem_singleton, List.not_mem_nil, or_false] at h
      rcases h with rfl | rfl | rfl | rfl <;> rfl
    · exact (hrestEdit ev h).1
  · have hnil : rest.filter (fun ev => ev.call.isDeserialize) = [] :=
      List.filter_eq_nil_iff.2 (fun ev hev => by simp [(hrestEdit ev hev).2])
    rw [hsince, List.filter_append, hnil]
    simp [Call.isDeserialize]
  · intro r h
    rw [hsince, List.filterMap_append]
    simpa [Event.upserted] using hr r h

/-- Witness of the amended C6: store and remote hold the same session, so the
conflict buffer is nil. -/
theorem Sync_empty_conflicts_skips_editor_only_witness :
    (∀ ev ∈ (Sync demo false (State.init [mkSession 1] [mkSession 1])).2.since
        (State.init [mkSession 1] [mkSession 1]), ev.call.isEdit = false) ∧
    ((Sync demo false (State.init [mkSession 1] [mkSession 1])).2.since
        (State.init [mkSession 1] [mkSession 1])).filter (fun ev => ev.call.isDeserialize)
      = [⟨.DeserializeSessionsFromYAML none [mkSession 1] false,
          errOf (demo.DeserializeSessionsFromYAML none [mkSession 1] false)⟩] ∧
    (pullResolve demo (State.init [mkSession 1] [mkSession 1])).1
      = demo.DeserializeSessionsFromYAML none [mkSession 1] false ∧
    (∀ r, demo.DeserializeSessionsFromYAML none [mkSession 1] false = .ok r →
      ((Sync demo false (State.init [mkSession 1] [mkSession 1])).2.since
        (State.init [mkSession 1] [mkSession 1])).filterMap Event.upserted <+: r ∧
      ((pull demo (State.init [mkSession 1] [mkSession 1])).1 = .ok r →
        ((Sync demo false (State.init [mkSession 1] [mkSession 1])).2.since
          (State.init [mkSession 1] [mkSession 1])).filterMap Event.upserted = r)) :=
  Sync_empty_conflicts_skips_editor_only demo false (State.init [mkSession 1] [mkSession 1])
    [mkSession 1] [mkSession 1] none rfl rfl rfl (Or.inl rfl)

/-- C6 as stated fails: store and remote hold the same session, GetConflicts
returns a nil buffer, and the run still calls the YAML deserializer. -/
theorem Sync_empty_conflicts_calls_deserializer :
    demo.Pull [mkSession 1] = .ok [mkSession 1] ∧
    demo.GetAllSessionsAllCompanies [mkSession 1] = .ok [mkSession 1] ∧
    demo.GetConflicts [mkSession 1] [mkSession 1] = .ok none ∧
    (Sync demo false (State.init [mkSession 1] [mkSession 1])).2.trace =
      [⟨.Pull, none⟩, ⟨.GetAllSessionsAllCompanies, none⟩,
       ⟨.GetConflicts [mkSession 1] [mkSession 1], none⟩,
       ⟨.DeserializeSessionsFromYAML none [mkSession 1] false, none⟩,
       ⟨.Upsert (mkSession 1) false, none⟩, ⟨.Push [mkSession 1], none⟩] ∧
    ¬ (∀ ev ∈ (Sync demo false (State.init [mkSession 1] [mkSession 1])).2.trace,
        ev.call.isDeserialize = false) := by
  refine ⟨rfl, rfl, rfl, by decide, by decide⟩

/-- C7, amended: the commit loop calls Upsert only, once per session and one
at a time, in the order in which the resolved collection was delivered, and
stops at the first failure.  When every Upsert succeeds the calls are one
successful Upsert per session of the collection, in its own order, and the
loop returns nil.  When Upsert succeeds along `a` and fails with `e` on `s`,
the collection being `a ++ s :: b`, the calls are one successful Upsert per
session of `a`, then the failing call on `s`, and nothing after it: no session
of `b` is upserted and the loop returns `e`.  One of the two cases always
holds.  No sorting takes place. -/
theorem pullCommit_in_delivered_order (c : Collaborators St Rm S P E) (l : List S)
    (σ : State St Rm S P E) :
    (∀ ev ∈ (pullCommit c l σ).2.since σ, ev.call.isUpsert = true) ∧
    ((pullCommit c l σ).2.since σ).filterMap Event.upserted <+: l ∧
    ((pullCommit c l σ).1 = none →
      ((pullCommit c l σ).2.since σ).filterMap Event.upserted = l) ∧
    (commitSucceeds c l σ.store →
      (pullCommit c l σ).1 = none ∧ (pullCommit c l σ).2.since σ = l.map okUpsert) ∧
    (∀ a s b e, l = a ++ s :: b → commitSucceeds c a σ.store →
      (c.Upsert s false (commitStore c a σ.store)).1 = some e →
      (pullCommit c l σ).1 = some e ∧
      (pullCommit c l σ).2.since σ = a.map okUpsert ++ [⟨.Upsert s false, some e⟩] ∧
      ((pullCommit c l σ).2.since σ).filterMap Event.upserted = a ++ [s]) ∧
    (commitSucceeds c l σ.store ∨
      ∃ a s b e, l = a ++ s :: b ∧ commitSucceeds c a σ.store ∧
        (c.Upsert s false (commitStore c a σ.store)).1 = some e) := by
  have hok : commitSucceeds c l σ.store →
      (pullCommit c l σ).1 = none ∧ (pullCommit c l σ).2.since σ = l.map okUpsert := by
    intro h
    rw [pullCommit_of_succeeds c l σ h, since_mk]
    exact ⟨rfl, rfl⟩
  have hfail : ∀ a s b e, l = a ++ s :: b → commitSucceeds c a σ.store →
      (c.Upsert s false (commitStore c a σ.store)).1 = some e →
      (pullCommit c l σ).1 = some e ∧
      (pullCommit c l σ).2.since σ = a.map okUpsert ++ [⟨.Upsert s false, some e⟩] ∧
      ((pullCommit c l σ).2.since σ).filterMap Event.upserted = a ++ [s] := by
    intro a s b e hl h₁ h₂
    subst hl
    rw [pullCommit_fail_at c a s b σ e h₁ h₂, since_self_append, List.filterMap_append,
      filterMap_upserted_ok]
    exact ⟨rfl, rfl, by simp [Event.upserted]⟩
  rcases pullCommit_cases c l σ with ⟨h, -⟩ | ⟨a, s, b, e, hl, h₁, h₂, -⟩
  · obtain ⟨hres, hsince⟩ := hok h
    refine ⟨?_, ?_, ?_, hok, hfail, Or.inl h⟩
    · rw [hsince]
      intro ev hev
      obtain ⟨t, -, rfl⟩ := List.mem_map.1 hev
      rfl
    · rw [hsince, filterMap_upserted_ok]
    · intro _
      rw [hsince, filterMap_upserted_ok]
  · obtain ⟨hres, hsince, hcalls⟩ := hfail a s b e hl h₁ h₂
    refine ⟨?_, ?_, ?_, hok, hfail, Or.inr ⟨a, s, b, e, hl, h₁, h₂⟩⟩
    · rw [hsince]
      intro ev hev
      rcases List.mem_append.1 hev with h | h
      · obtain ⟨t, -, rfl⟩ := List.mem_map.1 h
        rfl
      · rw [List.mem_singleton.1 h]; rfl
    · rw [hcalls, hl]
      exact ⟨b, by simp⟩
    · intro h
      rw [hres] at h
      cases h

/-- Witness of the amended C7: session 2, a session that ends before it
starts, and session 4 are delivered in that order; session 2 is upserted, the
Upsert of the bad session fails, and session 4 is not upserted. -/
theorem pullCommit_in_delivered_order_witness :
    (pullCommit demo [mkSession 2, badSession, mkSession 4] (State.init [] [])).1
      = some "validation" ∧
    (pullCommit demo [mkSession 2, badSession, mkSession 4] (State.init [] [])).2.since
        (State.init [] [])
      = [mkSession 2].map okUpsert ++ [⟨.Upsert badSession false, some "validation"⟩] ∧
    ((pullCommit demo [mkSession 2, badSession, mkSession 4] (State.init [] [])).2.since
      (State.init [] [])).filterMap Event.upserted = [mkSession 2] ++ [badSession] :=
  (pullCommit_in_delivered_order demo [mkSession 2, badSession, mkSession 4]
    (State.init [] [])).2.2.2.2.1 [mkSession 2] badSession [mkSession 4] "validation"
      rfl ⟨rfl, trivial⟩ (by decide)

/-- C7 as stated fails: the store delivers session 2 before session 1, there is
no conflict, and the identifiers of the Upsert calls of the run are 2 then 1,
which is not ascending. -/
theorem Sync_commit_not_in_identifier_order :
    ((Sync demo false (State.init [mkSession 2, mkSession 1]
        [mkSession 2, mkSession 1])).2.trace.filterMap Event.upserted).map Session.id
      = [2, 1] ∧
    ¬ (((Sync demo false (State.init [mkSession 2, mkSession 1]
        [mkSession 2, mkSession 1])).2.trace.filterMap Event.upserted).map
          Session.id).Sorted (fun x y => x ≤ y) := by
  refine ⟨by decide, by decide⟩

/-! ## The store as a map: upsert lemmas -/

section MapStore

variable {K : Type} [DecidableEq K] (key : S → K)

theorem mem_keys_upsertStore (s : S) (st : List S) (k : K) :
    k ∈ (upsertStore key s st).map key ↔ k = key s ∨ k ∈ st.map key := by
  induction st with
  | nil => simp [upsertStore]
  | cons t ts ih =>
    unfold upsertStore
    split
    · rename_i h
      simp only [List.map_cons, List.mem_cons, h]
      tauto
    · simp only [List.map_cons, List.mem_cons, ih]
      tauto

theorem upsertStore_absorb (s t : S) (st : List S) (h : key s = key t) :
    upsertStore key s (upsertStore key t st) = upsertStore key s st := by
  induction st with
  | nil => simp [upsertStore, h]
  | cons u us ih =>
    by_cases hu : key u = key t
    · simp [upsertStore, hu, h]
    · have hu' : ¬ key u = key s := by rw [h]; exact hu
      simp [upsertStore, hu, hu', ih]

theorem upsertStore_comm (s t : S) (st : List S) (h : key s ≠ key t)
    (ht : key t ∈ st.map key) :
    upsertStore key s (upsertStore key t st) = upsertStore key t (upsertStore key s st) := by
  induction st with
  | nil => simp at ht
  | cons u us ih =>
    by_cases hut : key u = key t
    · have hus : ¬ key u = key s := fun h' => h (h'.symm.trans hut)
      have hts : ¬ key t = key s := fun h' => h h'.symm
      simp [upsertStore, hut, hus, hts]
    · by_cases hus : key u = key s
      · simp [upsertStore, hut, hus, h]
      · have ht' : key t ∈ us.map key := by
          simp only [List.map_cons, List.mem_cons] at ht
          rcases ht with ht | ht
          · exact absurd ht.symm hut
          · exact ht
        simp [upsertStore, hut, hus, ih ht']

theorem upsertAll_cons (s : S) (l st : List S) :
    upsertAll key (s :: l) st = upsertAll key l (upsertStore key s st) := rfl

theorem upsertAll_append_singleton (s : S) (l st : List S) :
    upsertAll key (l ++ [s]) st = upsertStore key s (upsertAll key l st) := by
  simp [upsertAll, List.foldl_append]

theorem mem_keys_upsertAll (l st : List S) (k : K) :
    k ∈ (upsertAll key l st).map key ↔ k ∈ l.map key ∨ k ∈ st.map key := by
  induction l generalizing st with
  | nil => simp [upsertAll]
  | cons s l ih =>
    rw [upsertAll_cons, ih, mem_keys_upsertStore]
    simp only [List.map_cons, List.mem_cons]
    tauto

theorem upsertStore_upsertAll_upsertStore (s : S) (l X : List S)
    (hl : ∀ t ∈ l, key t ∈ X.map key) :
    upsertStore key s (upsertAll key l (upsertStore key s X))
      = upsertStore key s (upsertAll key l X) := by
  induction l generalizing X with
  | nil => exact upsertStore_absorb key s s X rfl
  | cons t r ih =>
    rw [upsertAll_cons, upsertAll_cons]
    have htX : key t ∈ X.map key := hl t (by simp)
    have hr : ∀ u ∈ r, key u ∈ (upsertStore key t X).map key := by
      intro u hu
      rw [mem_keys_upsertStore]
      exact Or.inr (hl u (by simp [hu]))
    by_cases hts : key t = key s
    · rw [upsertStore_absorb key t s X hts]
    · rw [← upsertStore_comm key s t X (fun h => hts h.symm) htX, ih _ hr]

theorem upsertAll_idem (l st : List S) :
    upsertAll key l (upsertAll key l st) = upsertAll key l st := by
  induction l using List.reverseRecOn generalizing st with
  | nil => rfl
  | append_singleton l s ih =>
    rw [upsertAll_append_singleton, upsertAll_append_singleton,
      upsertStore_upsertAll_upsertStore key s l _ (fun t ht => by
        rw [mem_keys_upsertAll]
        exact Or.inl (List.mem_map_of_mem key ht)), ih]

theorem commitSucceeds_withMapStore (c : Collaborators (List S) Rm S P E) (l st : List S) :
    commitSucceeds (withMapStore key c) l st := by
  induction l generalizing st with
  | nil => trivial
  | cons s l ih => exact ⟨rfl, ih _⟩

theorem commitStore_withMapStore (c : Collaborators (List S) Rm S P E) (l st : List S) :
    commitStore (withMapStore key c) l st = upsertAll key l st := rfl

end MapStore

/-! ## The commit loop on the map store -/

/-- C8: with the store as a map keyed by session identifier and Upsert as
insert-or-overwrite, the commit loop of `pull` succeeds on every collection
`L` (duplicate identifiers allowed) from every state, and running it a second
time on `L` leaves the store as the first run left it. -/
theorem pullCommit_twice_eq_once {K : Type} [DecidableEq K] (key : S → K)
    (c : Collaborators (List S) Rm S P E) (L : List S) (σ : State (List S) Rm S P E) :
    (pullCommit (withMapStore key c) L σ).1 = none ∧
    (pullCommit (withMapStore key c) L (pullCommit (withMapStore key c) L σ).2).1 = none ∧
    (pullCommit (withMapStore key c) L (pullCommit (withMapStore key c) L σ).2).2.store
      = (pullCommit (withMapStore key c) L σ).2.store := by
  have h₁ := pullCommit_of_succeeds (withMapStore key c) L σ
    (commitSucceeds_withMapStore key c L σ.store)
  have h₂ := pullCommit_of_succeeds (withMapStore key c) L
    (pullCommit (withMapStore key c) L σ).2 (commitSucceeds_withMapStore key c L _)
  refine ⟨by rw [h₁], by rw [h₂], ?_⟩
  rw [h₂]
  rw [h₁, commitStore_withMapStore, commitStore_withMapStore]
  exact upsertAll_idem key L σ.store

/-! ## The start and end commands -/

/-- C9 as stated fails: auto-sync is set on start, the remote is unreachable;
StartSession succeeds, the sync run it triggers fails at Pull, and the start
command still returns nil. -/
theorem startRunE_hides_sync_failure :
    demoConfig.Settings.AutoSync.contains "start" = true ∧
    (Sync demoOffline false (State.init [mkSession 1, ⟨2, "acme", 9, none, ""⟩] [])).1
      = some "remote unavailable" ∧
    startRunE demoPuncher demoConfig demoOffline false "acme" "" []
        (State.init [mkSession 1] [])
      = (.returned none, ⟨[mkSession 1, ⟨2, "acme", 9, none, ""⟩], [],
          [⟨.Pull, some "remote unavailable"⟩]⟩) := by
  refine ⟨by decide, rfl, rfl⟩

/-- C9, amended: the start command returns the error of the time parser or of
StartSession when one of them fails; when both succeed and the session
returned has its start set, it returns nil; it returns nil only if both
succeeded.  The end command returns the error of the time parser when it
fails, and nil when the parser, EndSession and the earnings computation
succeed on a session whose start and end are set.  In both commands the sync
run triggered by the auto-sync setting is made on the store the puncher left,
and its result is dropped: it does not change what the command returns. -/
theorem startRunE_endRunE_results {T C Sn R : Type} (d : PunchDeps St T C Sn E)
    (cfg : Config R) (c : Collaborators St Rm S P E) (pullOnly : Bool) (currentClient : C)
    (punchMessage : String) (args : List String) (σ : State St Rm S P E) :
    (∀ err, d.getParsedTimeFromArgs args = .error err →
      startRunE d cfg c pullOnly currentClient punchMessage args σ
        = (.returned (some err), σ)) ∧
    (∀ timestamp session err st, d.getParsedTimeFromArgs args = .ok timestamp →
      d.StartSession currentClient timestamp punchMessage σ.store
        = ((session, some err), st) →
      startRunE d cfg c pullOnly currentClient punchMessage args σ
        = (.returned (some err), { σ with store := st })) ∧
    (∀ timestamp s st, d.getParsedTimeFromArgs args = .ok timestamp →
      d.StartSession currentClient timestamp punchMessage σ.store = ((some s, none), st) →
      (d.Start s).isSome = true →
      startRunE d cfg c pullOnly currentClient punchMessage args σ
        = (.returned none, if cfg.Settings.AutoSync.contains "start"
          then (Sync c pullOnly { σ with store := st }).2 else { σ with store := st })) ∧
    ((startRunE d cfg c pullOnly currentClient punchMessage args σ).1 = .returned none →
      ∃ timestamp, d.getParsedTimeFromArgs args = .ok timestamp ∧
        (d.StartSession currentClient timestamp punchMessage σ.store).1.2 = none) ∧
    (∀ err, d.getParsedTimeFromArgs args = .error err →
      endRunE d cfg c pullOnly currentClient punchMessage args σ
        = (.returned (some err), σ)) ∧
    (∀ timestamp s st, d.getParsedTimeFromArgs args = .ok timestamp →
      d.EndSession currentClient timestamp punchMessage σ.store = ((some s, none), st) →
      (d.Start s).isSome = true → (d.End s).isSome = true → d.Earnings s = none →
      endRunE d cfg c pullOnly currentClient punchMessage args σ
        = (.returned none, if cfg.Settings.AutoSync.contains "end"
          then (Sync c pullOnly { σ with store := st }).2 else { σ with store := st })) := by
  refine ⟨?_, ?_, ?_, ?_, ?_, ?_⟩
  · intro err hp
    simp only [startRunE, hp]
  · intro timestamp session err st hp hs
    simp only [startRunE, hp, hs]
  · intro timestamp s st hp hs hstart
    simp only [startRunE, hp, hs, printBOD, hstart, if_true]
    split <;> rfl
  · intro h
    unfold startRunE at h
    cases hp : d.getParsedTimeFromArgs args with
    | error err =>
      rw [hp] at h
      simp at h
    | ok timestamp =>
      refine ⟨timestamp, rfl, ?_⟩
      rw [hp] at h
      rcases hs : d.StartSession currentClient timestamp punchMessage σ.store with
        ⟨⟨session, err⟩, st⟩
      cases err with
      | none => rfl
      | some err =>
        simp [hs] at h
  · intro err hp
    simp only [endRunE, hp]
  · intro timestamp s st hp hs hstart hend hearn
    obtain ⟨t₁, ht₁⟩ := Option.isSome_iff_exists.1 hstart
    obtain ⟨t₂, ht₂⟩ := Option.isSome_iff_exists.1 hend
    simp only [endRunE, hp, hs, printEOD, ht₁, ht₂, hearn]
    split <;> rfl

/-- Witness of the amended C9: an end command on a store with an open session
and an unreachable remote returns nil after the failed sync run. -/
theorem startRunE_endRunE_results_witness :
    endRunE demoPuncher demoConfig demoOffline false "acme" "done" ["17"]
        (State.init [⟨1, "acme", 9, none, ""⟩] [])
      = (.returned none, if demoConfig.Settings.AutoSync.contains "end"
          then (Sync demoOffline false
            { (State.init [⟨1, "acme", 9, none, ""⟩] [] :
                State (List Session) (List Session) Session (List Session) String)
              with store := [⟨1, "acme", 9, some 17, "done"⟩] }).2
          else { (State.init [⟨1, "acme", 9, none, ""⟩] [] :
                State (List Session) (List Session) Session (List Session) String)
              with store := [⟨1, "acme", 9, some 17, "done"⟩] }) :=
  (startRunE_endRunE_results demoPuncher demoConfig demoOffline false "acme" "done" ["17"]
    (State.init [⟨1, "acme", 9, none, ""⟩] [])).2.2.2.2.2 17
      ⟨1, "acme", 9, some 17, "done"⟩ [⟨1, "acme", 9, some 17, "done"⟩]
      rfl rfl rfl rfl rfl

/-- The end command on a store without any session: EndSession fails and
returns a nil session; the error is discarded on line 50, `printEOD`
dereferences the nil session, and the command panics instead of returning the
error. -/
theorem endRunE_EndSession_error_not_returned :
    (demoPuncher.EndSession "acme" 17 "" []).1 = (none, some "no open session") ∧
    endRunE demoPuncher demoConfig demo false "acme" "" ["17"] (State.init [] [])
      = (.panicked, State.init [] []) := by
  refine ⟨rfl, rfl⟩

/-! ## Remote resolution of the sync command -/

theorem length_pos_iff_ne_empty (s : String) : s.length > 0 ↔ s ≠ "" := by
  rcases s with ⟨l⟩
  cases l with
  | nil => simp [String.length]
  | cons a l =>
    simp [String.length]
    intro h
    have := congrArg String.data h
    simp at this

/-- C10: the sync command uses the first argument when one is given, otherwise
the configured default remote when it is non-empty.  It fails with "Must
specify remote" exactly when there is no argument and the default remote is
empty; it fails with "Remote not found" exactly when the chosen name is not a
key of the configured remotes (an unknown explicit argument does not fall back
to the default); in every other case it builds the source with NewSource from
the remote registered under the chosen name, and returns the source or the
error of NewSource. -/
theorem syncPreRunE_remote_resolution {R Repo Src : Type} (cfg : Config R)
    (NewSource : R → Repo → Except E Src) (SessionRepository : Repo) (args : List String) :
    (syncPreRunE cfg NewSource SessionRepository args = .error .mustSpecifyRemote ↔
      args = [] ∧ cfg.Settings.DefaultRemote = "") ∧
    (remoteNameSpec args cfg.Settings.DefaultRemote = none ↔
      args = [] ∧ cfg.Settings.DefaultRemote = "") ∧
    (syncPreRunE cfg NewSource SessionRepository args = .error .remoteNotFound ↔
      ∃ name, remoteNameSpec args cfg.Settings.DefaultRemote = some name ∧
        cfg.Remotes name = none) ∧
    (∀ name remote, remoteNameSpec args cfg.Settings.DefaultRemote = some name →
      cfg.Remotes name = some remote →
      syncPreRunE cfg NewSource SessionRepository args =
        match NewSource remote SessionRepository with
        | .error err => .error (.newSource err)
        | .ok source => .ok source) := by
  cases args with
  | nil =>
    by_cases hd : cfg.Settings.DefaultRemote = ""
    · have hlen : ¬ cfg.Settings.DefaultRemote.length > 0 := by
        rw [length_pos_iff_ne_empty]
        exact fun h => h hd
      simp [syncPreRunE, remoteNameSpec, hlen, hd]
    · have hlen : cfg.Settings.DefaultRemote.length > 0 := (length_pos_iff_ne_empty _).2 hd
      cases hr : cfg.Remotes cfg.Settings.DefaultRemote with
      | none =>
        simp [syncPreRunE, remoteNameSpec, hlen, hd, hr]
        intro name remote hname hrem
        subst hname
        rw [hr] at hrem
        cases hrem
      | some remote =>
        cases hn : NewSource remote SessionRepository <;>
          simp [syncPreRunE, remoteNameSpec, hlen, hd, hr, hn] <;>
          (intro name remote' hname hrem
           subst hname
           rw [hr] at hrem
           cases hrem
           simp [hn])
  | cons a rest =>
    cases hr : cfg.Remotes a with
    | none =>
      simp [syncPreRunE, remoteNameSpec, hr]
      intro name remote hname hrem
      subst hname
      rw [hr] at hrem
      cases hrem
    | some remote =>
      cases hn : NewSource remote SessionRepository <;>
        simp [syncPreRunE, remoteNameSpec, hr, hn] <;>
        (intro name remote' hname hrem
         subst hname
         rw [hr] at hrem
         cases hrem
         simp [hn])

/-- Witness of C10: without argument the default remote `origin` is chosen and
the source is built from the remote registered under that name; an unknown
explicit argument is not replaced by the default. -/
theorem syncPreRunE_remote_resolution_witness :
    syncPreRunE demoConfig demoNewSource () [] = .ok 0 ∧
    syncPreRunE demoConfig demoNewSource () ["backup"] = .error .remoteNotFound :=
  ⟨(syncPreRunE_remote_resolution demoConfig demoNewSource () []).2.2.2 "origin" 0
      (by decide) (by decide),
   (syncPreRunE_remote_resolution demoConfig demoNewSource () ["backup"]).2.2.1.2
      ⟨"backup", by decide, by decide⟩⟩

end Punch
